import Mathlib

/-!
Verification of the per-file transformation implemented by
src/batch-add-getters.py.  The script reads a Java source file, extracts
record-style accessor declarations with a structural regular expression,
synthesizes JavaBean-style getter declarations, and inserts them before the
last bare closing-brace line of the file.

The embedding models file contents as lists of characters.  The regular
expression of line 18 of the source is compiled by hand into a small
backtracking engine whose alternative order mirrors the Python `re`
backtracking order (greedy quantifiers try longest consumption first,
an optional group tries the present branch first), so that the head of the
alternative list is exactly the match Python would produce.  Character
classes are modelled over ASCII, which covers the Java sources the script
is written for.
-/

set_option maxHeartbeats 4000000
set_option maxRecDepth 8000

namespace Haven

abbrev Chars := List Char

/-- Python whitespace class `\s`, ASCII part: space, tab, newline, carriage
return, vertical tab, form feed.  Also the set stripped by `str.strip()`. -/
def spaceCl (c : Char) : Bool :=
  c = ' ' || c = '\t' || c = '\n' || c = '\r' || c = '\x0b' || c = '\x0c'

/-- Python word class `\w`, ASCII part: letters, digits, underscore. -/
def wordCl (c : Char) : Bool :=
  decide ('a' ≤ c ∧ c ≤ 'z') || decide ('A' ≤ c ∧ c ≤ 'Z') ||
  decide ('0' ≤ c ∧ c ≤ '9') || c = '_'

/-- Python `str.upper()` on one character, ASCII part (table form). -/
def pyUpper : Char → Char
  | 'a' => 'A' | 'b' => 'B' | 'c' => 'C' | 'd' => 'D' | 'e' => 'E'
  | 'f' => 'F' | 'g' => 'G' | 'h' => 'H' | 'i' => 'I' | 'j' => 'J'
  | 'k' => 'K' | 'l' => 'L' | 'm' => 'M' | 'n' => 'N' | 'o' => 'O'
  | 'p' => 'P' | 'q' => 'Q' | 'r' => 'R' | 's' => 'S' | 't' => 'T'
  | 'u' => 'U' | 'v' => 'V' | 'w' => 'W' | 'x' => 'X' | 'y' => 'Y'
  | 'z' => 'Z'
  | c => c

/-- Python `str.strip()` (source line 44): drop whitespace from both ends. -/
def pyStrip (l : Chars) : Chars :=
  ((l.dropWhile spaceCl).reverse.dropWhile spaceCl).reverse

/-- Python substring containment `pat in s` (source line 13). -/
def hasInfix (pat : Chars) : Chars → Bool
  | [] => pat.isEmpty
  | c :: t => pat.isPrefixOf (c :: t) || hasInfix pat t

/-! ## A small backtracking regex engine

Only the constructs appearing in the accessor pattern of source line 18 are
represented: literals, a character-class `+` and `*`, sequencing, an
optional group, and capturing groups.  `mtch` returns the full list of
backtracking alternatives, most preferred first, each as the remaining
suffix together with the captures accumulated so far. -/

inductive RE where
  | eps
  | lit (c : Char)
  | plus (p : Char → Bool)
  | star (p : Char → Bool)
  | seq (a b : RE)
  | opt (a : RE)
  | grp (a : RE)

/-- Suffixes left after consuming a prefix of the maximal `p`-run,
longest consumption first (the greedy backtracking order for `p*`). -/
def runSplits (p : Char → Bool) : Chars → List Chars
  | [] => [[]]
  | c :: t => if p c then runSplits p t ++ [c :: t] else [c :: t]

/-- Same for `p+`: at least one character must be consumed. -/
def plusSplits (p : Char → Bool) : Chars → List Chars
  | [] => []
  | c :: t => if p c then runSplits p t else []

abbrev Caps := List Chars

/-- All backtracking alternatives of matching `r` at the start of `s`,
in Python backtracking preference order. -/
def mtch : RE → Chars → List (Chars × Caps)
  | .eps, s => [(s, [])]
  | .lit c, s =>
    match s with
    | [] => []
    | c' :: t => if c' = c then [(t, [])] else []
  | .plus p, s => (plusSplits p s).map (fun s' => (s', []))
  | .star p, s => (runSplits p s).map (fun s' => (s', []))
  | .seq a b, s =>
    (mtch a s).flatMap (fun x => (mtch b x.1).map (fun y => (y.1, x.2 ++ y.2)))
  | .opt a, s => mtch a s ++ [(s, [])]
  | .grp a, s =>
    (mtch a s).map (fun x => (x.1, x.2 ++ [s.take (s.length - x.1.length)]))

/-- Sequence of single-character literals in front of a continuation. -/
def seqChars (cs : Chars) (k : RE) : RE :=
  cs.foldr (fun c acc => RE.seq (RE.lit c) acc) k

/-- The accessor pattern of source line 18, compiled by hand:
four spaces, `public`, whitespace, group 1 `\S+(?:<[^>]+>)?`, whitespace,
group 2 `\w+`, `()`, optional space, an opening brace, whitespace up to a
newline, whitespace, `return`, whitespace, group 3 `\w+`, `;`, whitespace up
to a newline, whitespace, a closing brace. -/
def accessorRE : RE :=
  seqChars "    public".data <|
  RE.seq (RE.plus spaceCl) <|
  RE.seq (RE.grp (RE.seq (RE.plus (fun c => !spaceCl c))
    (RE.opt (RE.seq (RE.lit '<')
      (RE.seq (RE.plus (fun c => decide (c ≠ '>'))) (RE.lit '>')))))) <|
  RE.seq (RE.plus spaceCl) <|
  RE.seq (RE.grp (RE.plus wordCl)) <|
  seqChars "()".data <|
  RE.seq (RE.star spaceCl) <|
  RE.seq (RE.lit '\x7b') <|
  RE.seq (RE.star spaceCl) <|
  RE.seq (RE.lit '\n') <|
  RE.seq (RE.star spaceCl) <|
  seqChars "return".data <|
  RE.seq (RE.plus spaceCl) <|
  RE.seq (RE.grp (RE.plus wordCl)) <|
  RE.seq (RE.lit ';') <|
  RE.seq (RE.star spaceCl) <|
  RE.seq (RE.lit '\n') <|
  RE.seq (RE.star spaceCl) <|
  RE.lit '\x7d'

/-- One extracted triple: return type, accessor name, backing-field name. -/
abbrev PyTriple := Chars × Chars × Chars

def toTriple (g : Caps) : PyTriple :=
  match g with
  | [a, b, c] => (a, b, c)
  | _ => ([], [], [])

/-- `re.findall` scan (source line 19): try the pattern at each position,
emit the captures of the preferred match, continue after the matched text;
non-overlapping, left to right.  `fuel` bounds the recursion; the caller
passes the length of the text, which suffices because each step either
consumes at least one character or moves one character forward. -/
def scanAux : Nat → Chars → List PyTriple
  | 0, _ => []
  | fuel + 1, s =>
    match s with
    | [] => []
    | _ :: t =>
      match (mtch accessorRE s).head? with
      | none => scanAux fuel t
      | some x =>
        if x.1.length < s.length then toTriple x.2 :: scanAux fuel x.1
        else toTriple x.2 :: scanAux fuel t

/-- The accessor extractor: all matches of the pattern, in order. -/
def findAccessors (content : Chars) : List PyTriple :=
  scanAux content.length content

/-! ## The name transformer, synthesizer, and insertion engine -/

/-- Python `name[0].upper() + name[1:]` (source lines 32 and 34). -/
def capFirst : Chars → Chars
  | [] => []
  | c :: cs => pyUpper c :: cs

/-- The two-branch naming rule of source lines 31-34. -/
def getterName (returnType methodName : Chars) : Chars :=
  if returnType = "boolean".data ∧ "is".data.isPrefixOf methodName then
    capFirst methodName
  else "get".data ++ capFirst methodName

/-- The marker comment literal checked on source line 13. -/
def markerChars : Chars := "// JavaBean-style getters".data

/-- The first element appended to `getters` on source line 27. -/
def markerLine : Chars := "\n    // JavaBean-style getters".data

/-- One synthesized declaration line (source line 36). -/
def mkDecl (t : PyTriple) : Chars :=
  "    public ".data ++ t.1 ++ " ".data ++ getterName t.1 t.2.1 ++
    "() \x7b return ".data ++ t.2.2 ++ "; \x7d".data

/-- The synthesized block as a list of pieces (source lines 26-36):
the marker line followed by one declaration per extracted triple. -/
def mkGetters (accessors : List PyTriple) : List Chars :=
  markerLine :: accessors.map mkDecl

/-- Python `content.split(chr 10)` (source line 39). -/
def splitNl : Chars → List Chars
  | [] => [[]]
  | c :: t =>
    if c = '\n' then [] :: splitNl t
    else
      match splitNl t with
      | [] => [[c]]
      | h :: rs => (c :: h) :: rs

/-- Python `(chr 10).join(lines)` (source lines 54 and 57). -/
def joinNl : List Chars → Chars
  | [] => []
  | [l] => l
  | l :: ls => l ++ '\n' :: joinNl ls

/-- Python `lines.insert(i, x)` for an index within the list. -/
def insertAt (l : List Chars) (i : Nat) (x : Chars) : List Chars :=
  l.take i ++ [x] ++ l.drop i

/-- Index of the last element satisfying `p`; models the downward scan of
source lines 42-47 (first hit scanning from the end). -/
def lastIdxP (p : α → Bool) : List α → Option Nat
  | [] => none
  | a :: t =>
    match lastIdxP p t with
    | some j => some (j + 1)
    | none => if p a then some 0 else none

/-- The bare-closing-brace test of source line 45. -/
def braceLine (l : Chars) : Bool := pyStrip l == "\x7d".data

/-- The insertion engine (source lines 39-54): split into lines, find the
last line whose stripped content is a single closing brace, insert the
block immediately before it, join back.  `none` when no such line exists
(the warning branch of source lines 49-51). -/
def insertBeforeLastBrace (content block : Chars) : Option Chars :=
  match lastIdxP braceLine (splitNl content) with
  | none => none
  | some i => some (joinNl (insertAt (splitNl content) i block))

/-- The per-file transformation `add_java_bean_getters` of the source,
as a function from file content to (new content, wrote-back flag).
Every `return False` path leaves the content unchanged. -/
def add_java_bean_getters (content : Chars) : Chars × Bool :=
  if hasInfix markerChars content then (content, false)
  else
    let accessors := findAccessors content
    if accessors.isEmpty then (content, false)
    else
      match insertBeforeLastBrace content (joinNl (mkGetters accessors)) with
      | none => (content, false)
      | some nc => (nc, true)

/-- The synthesized block of one file, as inserted (one joined string). -/
def gettersBlock (content : Chars) : Chars :=
  joinNl (mkGetters (findAccessors content))

/-- The per-directory loop of `main` (source lines 82-85): process every
file in order, collect the new contents, count updated and total files. -/
def processFiles : List Chars → List Chars × Nat × Nat
  | [] => ([], 0, 0)
  | c :: rest =>
    ((add_java_bean_getters c).1 :: (processFiles rest).1,
     (if (add_java_bean_getters c).2 then 1 else 0) + (processFiles rest).2.1,
     1 + (processFiles rest).2.2)

/-- The concrete scenario content of the claim: four lines, accessors
written with the whole body on one line. -/
def inputC1 : Chars :=
  "public class E \x7b\n    public String name() \x7b return name; \x7d\n    public boolean isActive() \x7b return active; \x7d\n\x7d".data

/-- The same class with the accessor bodies in the multi-line form the
pattern of source line 18 expects. -/
def inputC1m : Chars :=
  "public class E \x7b\n    public String name() \x7b\n        return name;\n    \x7d\n    public boolean isActive() \x7b\n        return active;\n    \x7d\n\x7d".data

/-- The transformed result for `inputC1m`: the synthesized block sits
immediately before the final closing-brace line. -/
def outC1 : Chars :=
  "public class E \x7b\n    public String name() \x7b\n        return name;\n    \x7d\n    public boolean isActive() \x7b\n        return active;\n    \x7d\n\n    // JavaBean-style getters\n    public String getName() \x7b return name; \x7d\n    public boolean IsActive() \x7b return active; \x7d\n\x7d".data

/-- A small multi-line input on which the transformation writes back. -/
def tinyInput : Chars :=
  "A \x7b\n    public int x() \x7b\n        return y;\n    \x7d\n\x7d".data

/-! ## List and line helpers -/

theorem splitNl_ne_nil (s : Chars) : splitNl s ≠ [] := by
  cases s with
  | nil => simp [splitNl]
  | cons c t =>
    simp only [splitNl]
    by_cases h : c = '\n'
    · simp [h]
    · simp only [if_neg h]
      cases splitNl t <;> simp

theorem joinNl_cons_cons (l h : Chars) (t : List Chars) :
    joinNl (l :: h :: t) = l ++ '\n' :: joinNl (h :: t) := rfl

theorem joinNl_splitNl (s : Chars) : joinNl (splitNl s) = s := by
  induction s with
  | nil => rfl
  | cons c t ih =>
    simp only [splitNl]
    by_cases h : c = '\n'
    · rw [if_pos h, h]
      cases hs : splitNl t with
      | nil => exact absurd hs (splitNl_ne_nil t)
      | cons a rs =>
        rw [hs] at ih
        rw [joinNl_cons_cons, ← ih]
        rfl
    · rw [if_neg h]
      cases hs : splitNl t with
      | nil => exact absurd hs (splitNl_ne_nil t)
      | cons a rs =>
        rw [hs] at ih
        cases rs with
        | nil =>
          show (c :: a : Chars) = c :: t
          rw [← ih]
          rfl
        | cons b rs2 =>
          rw [joinNl_cons_cons, ← ih, joinNl_cons_cons]
          rfl

theorem joinNl_append (a b : List Chars) (ha : a ≠ []) (hb : b ≠ []) :
    joinNl (a ++ b) = joinNl a ++ '\n' :: joinNl b := by
  induction a with
  | nil => exact absurd rfl ha
  | cons x a2 ih =>
    cases a2 with
    | nil =>
      cases b with
      | nil => exact absurd rfl hb
      | cons y bs => rfl
    | cons z a3 =>
      have ih2 := ih (by simp)
      show joinNl (x :: (z :: a3 ++ b)) = joinNl (x :: z :: a3) ++ '\n' :: joinNl b
      have hcons : z :: a3 ++ b = z :: (a3 ++ b) := rfl
      rw [show (x : Chars) :: (z :: a3 ++ b) = x :: z :: (a3 ++ b) from rfl,
        joinNl_cons_cons, joinNl_cons_cons]
      rw [show (z : Chars) :: (a3 ++ b) = z :: a3 ++ b from rfl, ih2]
      simp [List.append_assoc]

theorem lastIdxP_none_iff (p : α → Bool) (l : List α) :
    lastIdxP p l = none ↔ ∀ a ∈ l, p a = false := by
  induction l with
  | nil => simp [lastIdxP]
  | cons a t ih =>
    simp only [lastIdxP]
    cases ht : lastIdxP p t with
    | some j =>
      constructor
      · intro hc; exact absurd hc (by simp)
      · intro hall
        have hnone : lastIdxP p t = none :=
          ih.mpr fun x hx => hall x (List.mem_cons_of_mem a hx)
        rw [ht] at hnone; exact absurd hnone (by simp)
    | none =>
      have hall := ih.mp ht
      by_cases hp : p a
      · constructor
        · intro hc; rw [if_pos hp] at hc; exact absurd hc (by simp)
        · intro h2; exact absurd (h2 a (List.mem_cons_self a t)) (by simp [hp])
      · constructor
        · intro _ x hx
          rcases List.mem_cons.mp hx with rfl | hx2
          · simpa using hp
          · exact hall x hx2
        · intro _; rw [if_neg hp]

theorem lastIdxP_spec (p : α → Bool) (l : List α) (i : Nat)
    (h : lastIdxP p l = some i) :
    i < l.length ∧ (∃ x, l[i]? = some x ∧ p x = true) ∧
      ∀ j x, i < j → l[j]? = some x → p x = false := by
  induction l generalizing i with
  | nil => simp [lastIdxP] at h
  | cons a t ih =>
    simp only [lastIdxP] at h
    cases ht : lastIdxP p t with
    | some j =>
      rw [ht] at h
      obtain rfl : j + 1 = i := by simpa using h
      obtain ⟨hlt, ⟨x, hx, hpx⟩, hlast⟩ := ih j ht
      refine ⟨by simpa using Nat.succ_lt_succ hlt,
        ⟨x, by simpa using hx, hpx⟩, ?_⟩
      intro k y hk hky
      cases k with
      | zero => omega
      | succ k2 =>
        rw [List.getElem?_cons_succ] at hky
        exact hlast k2 y (by omega) hky
    | none =>
      rw [ht] at h
      by_cases hp : p a
      · rw [if_pos hp] at h
        obtain rfl : 0 = i := by simpa using h
        refine ⟨by simp, ⟨a, by simp, by simpa using hp⟩, ?_⟩
        intro k y hk hky
        cases k with
        | zero => omega
        | succ k2 =>
          rw [List.getElem?_cons_succ] at hky
          have hmem : y ∈ t := by
            have h2 := List.getElem?_eq_some.mp hky
            obtain ⟨hb, rfl⟩ := h2
            exact List.getElem_mem hb
          exact (lastIdxP_none_iff p t).mp ht y hmem
      · rw [if_neg hp] at h; exact absurd h (by simp)

theorem lastIdxP_isSome (p : α → Bool) (l : List α) (x : α)
    (hx : x ∈ l) (hp : p x = true) : ∃ i, lastIdxP p l = some i := by
  cases h : lastIdxP p l with
  | some i => exact ⟨i, rfl⟩
  | none =>
    have := (lastIdxP_none_iff p l).mp h x hx
    rw [hp] at this; exact absurd this (by simp)

theorem isPrefixOf_self_append (l t : Chars) : l.isPrefixOf (l ++ t) = true := by
  induction l with
  | nil => simp [List.isPrefixOf]
  | cons c l2 ih => simp [List.isPrefixOf, ih]

theorem hasInfix_of_mid (pat a b : Chars) :
    hasInfix pat (a ++ pat ++ b) = true := by
  induction a with
  | nil =>
    show hasInfix pat ([] ++ pat ++ b) = true
    rw [List.nil_append]
    cases hpb : pat ++ b with
    | nil =>
      obtain ⟨rfl, rfl⟩ := List.append_eq_nil.mp hpb
      rfl
    | cons x xs =>
      have hpre : pat.isPrefixOf (x :: xs) = true := by
        rw [← hpb]; exact isPrefixOf_self_append pat b
      simp [hasInfix, hpre]
  | cons c a2 ih =>
    show hasInfix pat (c :: (a2 ++ pat ++ b)) = true
    simp only [hasInfix, Bool.or_eq_true]
    right
    simpa [List.append_assoc] using ih

/-! ## Regex engine lemmas -/

theorem runSplits_suffix (p : Char → Bool) :
    ∀ s t, t ∈ runSplits p s → t <:+ s := by
  intro s
  induction s with
  | nil =>
    intro t ht
    simp only [runSplits, List.mem_singleton] at ht
    subst ht; exact List.nil_suffix
  | cons c s2 ih =>
    intro t ht
    simp only [runSplits] at ht
    by_cases hp : p c
    · rw [if_pos hp] at ht
      rcases List.mem_append.mp ht with h1 | h2
      · exact (ih t h1).trans (List.suffix_cons c s2)
      · simp only [List.mem_singleton] at h2
        subst h2; exact List.suffix_refl _
    · rw [if_neg hp] at ht
      simp only [List.mem_singleton] at ht
      subst ht; exact List.suffix_refl _

theorem plusSplits_suffix (p : Char → Bool) :
    ∀ s t, t ∈ plusSplits p s → t <:+ s := by
  intro s t ht
  cases s with
  | nil => simp [plusSplits] at ht
  | cons c s2 =>
    simp only [plusSplits] at ht
    by_cases hp : p c
    · rw [if_pos hp] at ht
      exact (runSplits_suffix p s2 t ht).trans (List.suffix_cons c s2)
    · rw [if_neg hp] at ht; simp at ht

theorem mtch_suffix :
    ∀ (r : RE) (s : Chars) (x : Chars × Caps), x ∈ mtch r s → x.1 <:+ s := by
  intro r
  induction r with
  | eps =>
    intro s x hx
    simp only [mtch, List.mem_singleton] at hx
    subst hx; exact List.suffix_refl _
  | lit c =>
    intro s x hx
    cases s with
    | nil => simp [mtch] at hx
    | cons c2 t =>
      simp only [mtch] at hx
      by_cases hc : c2 = c
      · rw [if_pos hc] at hx
        simp only [List.mem_singleton] at hx
        subst hx; exact List.suffix_cons c2 t
      · rw [if_neg hc] at hx; simp at hx
  | plus p =>
    intro s x hx
    simp only [mtch, List.mem_map] at hx
    obtain ⟨t, ht, rfl⟩ := hx
    exact plusSplits_suffix p s t ht
  | star p =>
    intro s x hx
    simp only [mtch, List.mem_map] at hx
    obtain ⟨t, ht, rfl⟩ := hx
    exact runSplits_suffix p s t ht
  | seq a b iha ihb =>
    intro s x hx
    simp only [mtch, List.mem_flatMap, List.mem_map] at hx
    obtain ⟨y, hy, z, hz, rfl⟩ := hx
    exact (ihb y.1 z hz).trans (iha s y hy)
  | opt a iha =>
    intro s x hx
    rcases List.mem_append.mp hx with h1 | h2
    · exact iha s x h1
    · simp only [List.mem_singleton] at h2
      subst h2; exact List.suffix_refl _
  | grp a iha =>
    intro s x hx
    simp only [mtch, List.mem_map] at hx
    obtain ⟨y, hy, rfl⟩ := hx
    exact iha s y hy

/-- A character class that every string matched by `r` must contain:
true only when some mandatory literal of `r` is that character. -/
def reqChar (c : Char) : RE → Bool
  | .eps => false
  | .lit c2 => c2 = c
  | .plus _ => false
  | .star _ => false
  | .seq a b => reqChar c a || reqChar c b
  | .opt _ => false
  | .grp a => reqChar c a

theorem mtch_req (c : Char) :
    ∀ (r : RE) (s : Chars) (x : Chars × Caps),
      reqChar c r = true → x ∈ mtch r s → c ∈ s := by
  intro r
  induction r with
  | eps => intro s x hr; simp [reqChar] at hr
  | lit c2 =>
    intro s x hr hx
    have hc : c2 = c := by simpa [reqChar] using hr
    cases s with
    | nil => simp [mtch] at hx
    | cons c3 t =>
      simp only [mtch] at hx
      by_cases h3 : c3 = c2
      · subst h3; subst hc; exact List.mem_cons_self _ _
      · rw [if_neg h3] at hx; simp at hx
  | plus p => intro s x hr; simp [reqChar] at hr
  | star p => intro s x hr; simp [reqChar] at hr
  | seq a b iha ihb =>
    intro s x hr hx
    simp only [mtch, List.mem_flatMap, List.mem_map] at hx
    obtain ⟨y, hy, z, hz, rfl⟩ := hx
    rcases (by simpa [reqChar] using hr :
        reqChar c a = true ∨ reqChar c b = true) with ha | hb
    · exact iha s y ha hy
    · exact (mtch_suffix a s y hy).subset (ihb y.1 z hb hz)
  | opt a iha => intro s x hr; simp [reqChar] at hr
  | grp a iha =>
    intro s x hr hx
    simp only [mtch, List.mem_map] at hx
    obtain ⟨y, hy, rfl⟩ := hx
    exact iha s y (by simpa [reqChar] using hr) hy

theorem seqChars_start :
    ∀ (cs : Chars) (k : RE) (s : Chars) (x : Chars × Caps),
      x ∈ mtch (seqChars cs k) s → ∃ t, s = cs ++ t := by
  intro cs
  induction cs with
  | nil => intro k s x _; exact ⟨s, rfl⟩
  | cons c cs2 ih =>
    intro k s x hx
    have hsc : seqChars (c :: cs2) k = RE.seq (RE.lit c) (seqChars cs2 k) := rfl
    rw [hsc] at hx
    simp only [mtch, List.mem_flatMap, List.mem_map] at hx
    obtain ⟨y, hy, z, hz, rfl⟩ := hx
    cases s with
    | nil => simp [mtch] at hy
    | cons c2 t =>
      simp only [mtch] at hy
      by_cases hc : c2 = c
      · subst hc
        rw [if_pos rfl] at hy
        simp only [List.mem_singleton] at hy
        subst hy
        obtain ⟨t2, ht2⟩ := ih k t z hz
        exact ⟨t2, by simp [ht2]⟩
      · rw [if_neg hc] at hy; simp at hy

theorem runSplits_decomp (p : Char → Bool) :
    ∀ s t, t ∈ runSplits p s → ∃ w, s = w ++ t ∧ ∀ c ∈ w, p c = true := by
  intro s
  induction s with
  | nil =>
    intro t ht
    simp only [runSplits, List.mem_singleton] at ht
    subst ht
    exact ⟨[], rfl, by simp⟩
  | cons c s2 ih =>
    intro t ht
    simp only [runSplits] at ht
    by_cases hp : p c
    · rw [if_pos hp] at ht
      rcases List.mem_append.mp ht with h1 | h2
      · obtain ⟨w, hw, hall⟩ := ih t h1
        refine ⟨c :: w, by simp [hw], ?_⟩
        intro d hd
        rcases List.mem_cons.mp hd with rfl | hd2
        · exact hp
        · exact hall d hd2
      · simp only [List.mem_singleton] at h2
        subst h2
        exact ⟨[], rfl, by simp⟩
    · rw [if_neg hp] at ht
      simp only [List.mem_singleton] at ht
      subst ht
      exact ⟨[], rfl, by simp⟩

theorem mtch_seq_elim {a b : RE} {s : Chars} {x : Chars × Caps}
    (hx : x ∈ mtch (RE.seq a b) s) :
    ∃ y z, y ∈ mtch a s ∧ z ∈ mtch b y.1 ∧ x.1 = z.1 := by
  simp only [mtch, List.mem_flatMap, List.mem_map] at hx
  obtain ⟨y, hy, z, hz, rfl⟩ := hx
  exact ⟨y, z, hy, hz, rfl⟩

theorem mtch_lit_elim {c : Char} {s : Chars} {x : Chars × Caps}
    (hx : x ∈ mtch (RE.lit c) s) : ∃ t, s = c :: t ∧ x.1 = t := by
  cases s with
  | nil => simp [mtch] at hx
  | cons c2 t =>
    simp only [mtch] at hx
    by_cases h2 : c2 = c
    · subst h2
      rw [if_pos rfl] at hx
      simp only [List.mem_singleton] at hx
      subst hx
      exact ⟨t, rfl, rfl⟩
    · rw [if_neg h2] at hx; simp at hx

theorem mtch_star_elim {p : Char → Bool} {s : Chars} {x : Chars × Caps}
    (hx : x ∈ mtch (RE.star p) s) :
    ∃ w, s = w ++ x.1 ∧ ∀ c ∈ w, p c = true := by
  simp only [mtch, List.mem_map] at hx
  obtain ⟨t, ht, rfl⟩ := hx
  exact runSplits_decomp p s t ht

theorem mtch_seqChars_elim :
    ∀ (cs : Chars) (k : RE) (s : Chars) (x : Chars × Caps),
      x ∈ mtch (seqChars cs k) s →
      ∃ t z, s = cs ++ t ∧ z ∈ mtch k t ∧ x.1 = z.1 := by
  intro cs
  induction cs with
  | nil => intro k s x hx; exact ⟨s, x, rfl, hx, rfl⟩
  | cons c cs2 ih =>
    intro k s x hx
    have hsc : seqChars (c :: cs2) k = RE.seq (RE.lit c) (seqChars cs2 k) := rfl
    rw [hsc] at hx
    obtain ⟨y, z, hy, hz, hxz⟩ := mtch_seq_elim hx
    obtain ⟨t, hs, hyt⟩ := mtch_lit_elim hy
    rw [hyt] at hz
    obtain ⟨t2, z2, ht2, hz2, hzz⟩ := ih k t z hz
    exact ⟨t2, z2, by simp [hs, ht2], hz2, by rw [hxz, hzz]⟩

/-- Every match of the accessor pattern, at any position in any text,
covers an opening brace followed by nothing but whitespace, a mandatory
newline, more whitespace, and then the keyword `return`: the pattern of
source line 18 only matches declarations whose opening brace is followed
by a newline before the return statement. -/
theorem mtch_brace_newline (s : Chars) (x : Chars × Caps)
    (hx : x ∈ mtch accessorRE s) :
    ∃ A w1 w2 B,
      s = A ++ '\x7b' :: (w1 ++ '\n' :: (w2 ++ ("return".data ++ B))) ∧
      (∀ c ∈ w1, spaceCl c = true) ∧ (∀ c ∈ w2, spaceCl c = true) := by
  unfold accessorRE at hx
  obtain ⟨t1, z1, hs1, hz1, -⟩ := mtch_seqChars_elim _ _ _ _ hx
  obtain ⟨y2, z2, hy2, hz2, -⟩ := mtch_seq_elim hz1
  obtain ⟨y3, z3, hy3, hz3, -⟩ := mtch_seq_elim hz2
  obtain ⟨y4, z4, hy4, hz4, -⟩ := mtch_seq_elim hz3
  obtain ⟨y5, z5, hy5, hz5, -⟩ := mtch_seq_elim hz4
  obtain ⟨t2, z6, hs2, hz6, -⟩ := mtch_seqChars_elim _ _ _ _ hz5
  obtain ⟨y7, z7, hy7, hz7, -⟩ := mtch_seq_elim hz6
  obtain ⟨y8, z8, hy8, hz8, -⟩ := mtch_seq_elim hz7
  obtain ⟨t3, hbrace, hy8t⟩ := mtch_lit_elim hy8
  rw [hy8t] at hz8
  obtain ⟨y9, z9, hy9, hz9, -⟩ := mtch_seq_elim hz8
  obtain ⟨w1, ht3, hw1⟩ := mtch_star_elim hy9
  obtain ⟨y10, z10, hy10, hz10, -⟩ := mtch_seq_elim hz9
  obtain ⟨t5, hnl, hy10t⟩ := mtch_lit_elim hy10
  rw [hy10t] at hz10
  obtain ⟨y11, z11, hy11, hz11, -⟩ := mtch_seq_elim hz10
  obtain ⟨w2, ht5, hw2⟩ := mtch_star_elim hy11
  obtain ⟨t7, z12, hret, -, -⟩ := mtch_seqChars_elim _ _ _ _ hz11
  have hsuf : y7.1 <:+ s := by
    have h1 : y7.1 <:+ t2 := mtch_suffix _ t2 y7 hy7
    have h2 : t2 <:+ y5.1 := ⟨"()".data, hs2.symm⟩
    have h3 : y5.1 <:+ y4.1 := mtch_suffix _ _ y5 hy5
    have h4 : y4.1 <:+ y3.1 := mtch_suffix _ _ y4 hy4
    have h5 : y3.1 <:+ y2.1 := mtch_suffix _ _ y3 hy3
    have h6 : y2.1 <:+ t1 := mtch_suffix _ _ y2 hy2
    have h7 : t1 <:+ s := ⟨"    public".data, hs1.symm⟩
    exact (((((h1.trans h2).trans h3).trans h4).trans h5).trans h6).trans h7
  obtain ⟨A, hA⟩ := hsuf
  refine ⟨A, w1, w2, t7, ?_, hw1, hw2⟩
  rw [← hA, hbrace, ht3, hnl, ht5, hret]

theorem scanAux_no_nl :
    ∀ (fuel : Nat) (s : Chars), (∀ ch ∈ s, ch ≠ '\n') → scanAux fuel s = [] := by
  intro fuel
  induction fuel with
  | zero => intro s _; rfl
  | succ n ih =>
    intro s h
    cases s with
    | nil => rfl
    | cons a t =>
      have hm : mtch accessorRE (a :: t) = [] := by
        cases hm : mtch accessorRE (a :: t) with
        | nil => rfl
        | cons x xs =>
          have hnl : '\n' ∈ a :: t :=
            mtch_req '\n' accessorRE (a :: t) x (by rfl)
              (hm ▸ List.mem_cons_self x xs)
          exact absurd rfl (h '\n' hnl)
      simp only [scanAux, hm, List.head?]
      exact ih t fun ch hc => h ch (List.mem_cons_of_mem a hc)

theorem scanAux_pub :
    ∀ (fuel : Nat) (s : Chars), scanAux fuel s ≠ [] →
      ∃ a b, s = a ++ "    public".data ++ b := by
  intro fuel
  induction fuel with
  | zero => intro s h; exact absurd rfl h
  | succ n ih =>
    intro s h
    cases s with
    | nil => exact absurd rfl h
    | cons c t =>
      cases hm : (mtch accessorRE (c :: t)).head? with
      | some x =>
        have hmem : x ∈ mtch accessorRE (c :: t) := by
          cases hl : mtch accessorRE (c :: t) with
          | nil => rw [hl] at hm; simp at hm
          | cons y ys =>
            rw [hl] at hm
            simp only [List.head?] at hm
            rw [← Option.some_inj.mp hm]
            exact List.mem_cons_self y ys
        obtain ⟨b, hb⟩ := seqChars_start "    public".data _ (c :: t) x hmem
        exact ⟨[], b, by simpa using hb⟩
      | none =>
        have ht : scanAux n t ≠ [] := by
          intro h0
          apply h
          simp only [scanAux, hm, h0]
        obtain ⟨a, b, hab⟩ := ih t ht
        exact ⟨c :: a, b, by simp [hab]⟩

/-! ## Transformation-layer lemmas -/

theorem braceLine_iff (l : Chars) :
    braceLine l = true ↔ pyStrip l = "\x7d".data := by
  simp [braceLine]

theorem transform_cases (c : Chars) :
    add_java_bean_getters c = (c, false) ∨
    ∃ i, lastIdxP braceLine (splitNl c) = some i ∧
      add_java_bean_getters c =
        (joinNl (insertAt (splitNl c) i (gettersBlock c)), true) := by
  unfold add_java_bean_getters
  by_cases h1 : hasInfix markerChars c
  · left; simp [h1]
  · by_cases h2 : (findAccessors c).isEmpty
    · left; simp [h1, h2]
    · cases hL : lastIdxP braceLine (splitNl c) with
      | none => left; simp [h1, h2, insertBeforeLastBrace, hL]
      | some i =>
        right
        exact ⟨i, rfl, by simp [h1, h2, insertBeforeLastBrace, hL, gettersBlock]⟩

theorem transform_not_written (c : Chars)
    (h : (add_java_bean_getters c).2 = false) :
    (add_java_bean_getters c).1 = c := by
  rcases transform_cases c with h1 | ⟨i, _, h2⟩
  · rw [h1]
  · rw [h2] at h; simp at h

theorem written_shape (c : Chars) (h : (add_java_bean_getters c).2 = true) :
    ∃ i, lastIdxP braceLine (splitNl c) = some i ∧
      add_java_bean_getters c =
        (joinNl (insertAt (splitNl c) i (gettersBlock c)), true) := by
  rcases transform_cases c with h1 | h2
  · rw [h1] at h; simp at h
  · exact h2

theorem write_decomp (c : Chars) (h : (add_java_bean_getters c).2 = true) :
    ∃ P S, c = P ++ S ∧
      ((add_java_bean_getters c).1 = P ++ (gettersBlock c ++ ['\n']) ++ S ∨
       (add_java_bean_getters c).1 = P ++ ('\n' :: gettersBlock c) ++ S) := by
  obtain ⟨i, hL, hout⟩ := written_shape c h
  have hlt : i < (splitNl c).length := (lastIdxP_spec _ _ _ hL).1
  have hfst : (add_java_bean_getters c).1 =
      joinNl (insertAt (splitNl c) i (gettersBlock c)) := by rw [hout]
  have hdrop : (splitNl c).drop i ≠ [] := by
    intro h0
    have := List.length_drop i (splitNl c)
    rw [h0] at this
    simp at this
    omega
  have hsplit : (splitNl c).take i ++ (splitNl c).drop i = splitNl c :=
    List.take_append_drop i (splitNl c)
  have hc : c = joinNl (splitNl c) := (joinNl_splitNl c).symm
  unfold insertAt at hfst
  by_cases hi : i = 0
  · subst hi
    refine ⟨[], c, by simp, Or.inl ?_⟩
    simp only [List.take_zero, List.drop_zero, List.nil_append] at hfst
    rw [hfst]
    rw [show ([gettersBlock c] ++ splitNl c) =
      gettersBlock c :: splitNl c from rfl]
    cases hs : splitNl c with
    | nil => exact absurd hs (splitNl_ne_nil c)
    | cons a rs =>
      rw [joinNl_cons_cons]
      rw [hc, hs]
      simp [List.append_assoc]
  · have htake : (splitNl c).take i ≠ [] := by
      intro h0
      have := List.length_take i (splitNl c)
      rw [h0] at this
      simp at this
      omega
    refine ⟨joinNl ((splitNl c).take i),
      '\n' :: joinNl ((splitNl c).drop i), ?_, Or.inr ?_⟩
    · conv_lhs => rw [hc, ← hsplit]
      exact joinNl_append _ _ htake hdrop
    · rw [hfst]
      rw [show ((splitNl c).take i ++ [gettersBlock c] ++ (splitNl c).drop i) =
        ((splitNl c).take i ++ (gettersBlock c :: (splitNl c).drop i)) by
          simp [List.append_assoc]]
      rw [joinNl_append _ _ htake (by simp)]
      cases hd : (splitNl c).drop i with
      | nil => exact absurd hd hdrop
      | cons a rs =>
        rw [joinNl_cons_cons]
        simp [List.append_assoc]

theorem markerLine_eq : markerLine = "\n    ".data ++ markerChars := by decide

theorem gettersBlock_head (c : Chars) :
    ∃ r, gettersBlock c = ("\n    ".data ++ markerChars) ++ r := by
  unfold gettersBlock mkGetters
  cases hM : (findAccessors c).map mkDecl with
  | nil =>
    refine ⟨[], ?_⟩
    rw [show joinNl [markerLine] = markerLine from rfl, markerLine_eq]
    simp
  | cons d ds =>
    refine ⟨'\n' :: joinNl (d :: ds), ?_⟩
    rw [joinNl_cons_cons, markerLine_eq]

theorem marker_in_written (c : Chars) (h : (add_java_bean_getters c).2 = true) :
    hasInfix markerChars (add_java_bean_getters c).1 = true := by
  obtain ⟨P, S, _, hout⟩ := write_decomp c h
  obtain ⟨r, hg⟩ := gettersBlock_head c
  rcases hout with h1 | h2
  · have he : (add_java_bean_getters c).1 =
        (P ++ "\n    ".data) ++ markerChars ++ (r ++ '\n' :: S) := by
      rw [h1, hg]; simp [List.append_assoc]
    rw [he]; exact hasInfix_of_mid markerChars _ _
  · have he : (add_java_bean_getters c).1 =
        (P ++ '\n' :: "\n    ".data) ++ markerChars ++ (r ++ S) := by
      rw [h2, hg]; simp [List.append_assoc]
    rw [he]; exact hasInfix_of_mid markerChars _ _

theorem pyUpper_eq_nl (c : Char) (h : pyUpper c = '\n') : c = '\n' := by
  unfold pyUpper at h
  split at h <;> first | exact h | exact absurd h (by decide)

theorem capFirst_no_nl (mn : Chars) (h : ∀ ch ∈ mn, ch ≠ '\n') :
    ∀ ch ∈ capFirst mn, ch ≠ '\n' := by
  cases mn with
  | nil => simp [capFirst]
  | cons a t =>
    intro ch hch
    simp only [capFirst, List.mem_cons] at hch
    rcases hch with rfl | hm
    · intro hne
      exact h a (List.mem_cons_self a t) (pyUpper_eq_nl a hne)
    · exact h ch (List.mem_cons_of_mem a hm)

theorem getterName_no_nl (rt mn : Chars) (h : ∀ ch ∈ mn, ch ≠ '\n') :
    ∀ ch ∈ getterName rt mn, ch ≠ '\n' := by
  intro ch hch
  unfold getterName at hch
  split at hch
  · exact capFirst_no_nl mn h ch hch
  · rcases List.mem_append.mp hch with h1 | h2
    · have hg : ∀ x ∈ "get".data, x ≠ '\n' := by decide
      exact hg ch h1
    · exact capFirst_no_nl mn h ch h2

theorem processFiles_fst (l : List Chars) :
    (processFiles l).1 = l.map fun x => (add_java_bean_getters x).1 := by
  induction l with
  | nil => rfl
  | cons c t ih => simp [processFiles, ih]

theorem processFiles_total (l : List Chars) :
    (processFiles l).2.2 = l.length := by
  induction l with
  | nil => rfl
  | cons c t ih => simp [processFiles, ih]; omega

theorem processFiles_upd_append (l1 l2 : List Chars) :
    (processFiles (l1 ++ l2)).2.1 =
      (processFiles l1).2.1 + (processFiles l2).2.1 := by
  induction l1 with
  | nil => simp [processFiles]
  | cons c t ih =>
    show (processFiles (c :: (t ++ l2))).2.1 = _
    simp only [processFiles, ih]
    omega

theorem processFiles_upd_cons (c : Chars) (l : List Chars) :
    (processFiles (c :: l)).2.1 =
      (if (add_java_bean_getters c).2 then 1 else 0) + (processFiles l).2.1 := by
  simp [processFiles]

theorem transform_marker (c : Chars) (h : hasInfix markerChars c = true) :
    add_java_bean_getters c = (c, false) := by
  unfold add_java_bean_getters
  simp [h]

theorem isPre_is_iff (mn : Chars) :
    ("is".data.isPrefixOf mn = true) ↔ ∃ rest, mn = 'i' :: 's' :: rest := by
  cases mn with
  | nil => simp [List.isPrefixOf]
  | cons a t =>
    cases t with
    | nil => simp [List.isPrefixOf]
    | cons b t2 =>
      simp only [List.isPrefixOf, Bool.and_eq_true, beq_iff_eq]
      constructor
      · intro h
        exact ⟨t2, by rw [← h.1, ← h.2.1]⟩
      · rintro ⟨rest, hr⟩
        injection hr with hr1 hr2
        injection hr2 with hr2 hr3
        exact ⟨hr1.symm, hr2.symm, by simp [List.isPrefixOf]⟩

/-! ## Claim theorems -/

/-- C1, counterexample.  The claim asserts that on the exact four-line
content (accessor bodies written on a single line) the transformation
inserts a getter block.  In fact the pattern of source line 18 requires a
newline between the opening brace and the `return` statement, so the
extractor finds nothing and the transformation leaves this content
untouched and reports no write-back. -/
theorem C1_counterexample :
    findAccessors inputC1 = [] ∧
    add_java_bean_getters inputC1 = (inputC1, false) := by
  constructor
  · decide
  · decide

/-- C1, amended.  With the two accessors written in the multi-line body
form the pattern expects, the transformation inserts a block consisting of
a marker line, `public String getName() ...`, and
`public boolean IsActive() ...` in this order, immediately before the
final closing-brace line, and applying the transformation to the result
changes nothing. -/
theorem C1_amended_scenario :
    add_java_bean_getters inputC1m = (outC1, true) ∧
    add_java_bean_getters outC1 = (outC1, false) := by
  constructor
  · decide
  · decide

/-- C2: the per-file transformation is idempotent.  Whatever the first
application produced, a second application returns that content unchanged
with a no-write disposition, because either nothing was written (the
content is unchanged and falls into the same skip branch) or the written
content contains the marker comment and is skipped by the guard of source
line 13. -/
theorem C2_idempotent (c : Chars) :
    add_java_bean_getters (add_java_bean_getters c).1 =
      ((add_java_bean_getters c).1, false) := by
  cases hw : (add_java_bean_getters c).2 with
  | false =>
    have h1 : (add_java_bean_getters c).1 = c := transform_not_written c hw
    have h2 : add_java_bean_getters c = (c, false) := by
      rw [Prod.ext_iff]; exact ⟨h1, hw⟩
    rw [h1]
    exact h2
  | true => exact transform_marker _ (marker_in_written c hw)

/-- C3: the two-branch naming rule of source lines 31-34.  When the return
type is exactly `boolean` and the name starts with `is`, the alternate
name is the accessor name with only its first letter upper-cased and no
prefix added; in every other case it is `get` followed by the name with
its first letter upper-cased and the rest unchanged.  The result depends
only on the return type and the accessor name. -/
theorem C3_naming_rule (rt mn : Chars) (h : mn ≠ []) :
    (rt = "boolean".data → (∃ rest, mn = 'i' :: 's' :: rest) →
      getterName rt mn = pyUpper (mn.head h) :: mn.tail) ∧
    ((rt ≠ "boolean".data ∨ ∀ rest, mn ≠ 'i' :: 's' :: rest) →
      getterName rt mn = 'g' :: 'e' :: 't' :: pyUpper (mn.head h) :: mn.tail) := by
  cases mn with
  | nil => exact absurd rfl h
  | cons a t =>
    constructor
    · intro hrt his
      unfold getterName
      rw [if_pos ⟨hrt, (isPre_is_iff _).mpr his⟩]
      rfl
    · intro hneg
      unfold getterName
      rw [if_neg ?_]
      · rfl
      · rintro ⟨hrt, his⟩
        rcases hneg with h1 | h2
        · exact h1 hrt
        · obtain ⟨rest, hr⟩ := (isPre_is_iff _).mp his
          exact h2 rest hr

/-- C3 witness: the naming rule evaluated on the boolean `is`-branch. -/
theorem C3_witness :
    getterName "boolean".data "isActive".data =
      pyUpper (("isActive".data).head (by decide)) :: ("isActive".data).tail :=
  (C3_naming_rule "boolean".data "isActive".data (by decide)).1 rfl
    ⟨"Active".data, rfl⟩

/-- C4: for a document with at least one line whose stripped content is
exactly a closing brace, the insertion engine locates the last such line
(no later line has that property), inserts the block immediately before
it, and otherwise reproduces the lines unchanged: the output is the join
of the untouched lines before the insertion point, the block, and the
untouched lines from the terminating line on. -/
theorem C4_insert_before_last_brace (content block : Chars)
    (h : ∃ l ∈ splitNl content, pyStrip l = "\x7d".data) :
    ∃ i li, (splitNl content)[i]? = some li ∧ pyStrip li = "\x7d".data ∧
      (∀ j lj, i < j → (splitNl content)[j]? = some lj →
        pyStrip lj ≠ "\x7d".data) ∧
      insertBeforeLastBrace content block =
        some (joinNl ((splitNl content).take i ++
          block :: (splitNl content).drop i)) := by
  obtain ⟨l, hl, hst⟩ := h
  obtain ⟨i, hL⟩ := lastIdxP_isSome braceLine (splitNl content) l hl
    ((braceLine_iff l).mpr hst)
  obtain ⟨hlt, ⟨x, hx, hpx⟩, hlast⟩ := lastIdxP_spec _ _ _ hL
  refine ⟨i, x, hx, (braceLine_iff x).mp hpx, ?_, ?_⟩
  · intro j lj hij hj heq
    have hbt := (braceLine_iff lj).mpr heq
    rw [hlast j lj hij hj] at hbt
    exact Bool.noConfusion hbt
  · unfold insertBeforeLastBrace
    rw [hL]
    simp [insertAt]

/-- C4 witness: the insertion engine on a two-line document. -/
theorem C4_witness :
    ∃ i li, (splitNl "A \x7b\n\x7d".data)[i]? = some li ∧
      pyStrip li = "\x7d".data ∧
      (∀ j lj, i < j → (splitNl "A \x7b\n\x7d".data)[j]? = some lj →
        pyStrip lj ≠ "\x7d".data) ∧
      insertBeforeLastBrace "A \x7b\n\x7d".data "B".data =
        some (joinNl ((splitNl "A \x7b\n\x7d".data).take i ++
          "B".data :: (splitNl "A \x7b\n\x7d".data).drop i)) :=
  C4_insert_before_last_brace _ _ ⟨"\x7d".data, by decide, by decide⟩

/-- C5: whenever the transformation writes back, the input splits as
`P ++ S` such that the output is `P`, the synthesized block together with
the one newline that joins it in, then `S`: removing the inserted block
(and its joining newline) from the output restores the input byte for
byte, so no pre-existing character is altered. -/
theorem C5_preserves_content (c : Chars)
    (h : (add_java_bean_getters c).2 = true) :
    ∃ P S, c = P ++ S ∧
      ((add_java_bean_getters c).1 = P ++ (gettersBlock c ++ ['\n']) ++ S ∨
       (add_java_bean_getters c).1 = P ++ ('\n' :: gettersBlock c) ++ S) :=
  write_decomp c h

/-- C5 witness: a concrete input on which a write-back occurs. -/
theorem C5_witness :
    (add_java_bean_getters tinyInput).2 = true ∧
    ∃ P S, tinyInput = P ++ S ∧
      ((add_java_bean_getters tinyInput).1 =
          P ++ (gettersBlock tinyInput ++ ['\n']) ++ S ∨
       (add_java_bean_getters tinyInput).1 =
          P ++ ('\n' :: gettersBlock tinyInput) ++ S) :=
  ⟨by decide, C5_preserves_content tinyInput (by decide)⟩

/-- C6: when the extractor yields zero triples the transformation performs
no write-back and returns the content unchanged with a no-write
disposition, so no unchanged copy is written and no marker block without
declarations is ever emitted. -/
theorem C6_noop_on_miss (c : Chars) (h : findAccessors c = []) :
    add_java_bean_getters c = (c, false) := by
  unfold add_java_bean_getters
  by_cases h1 : hasInfix markerChars c
  · simp [h1]
  · simp [h1, h]

/-- C6 witness: content with no accessor declarations. -/
theorem C6_witness :
    add_java_bean_getters "hello".data = ("hello".data, false) :=
  C6_noop_on_miss "hello".data (by decide)

/-- C7: for a document with no line whose stripped content is exactly a
closing brace, the per-file operation fails safely: the content is left
untouched with a non-updated disposition, and the driver loop processes
every other file as usual — the failing file contributes nothing to the
updated count while the totals and the per-file results of the remaining
files are unaffected. -/
theorem C7_missing_brace_safe (c : Chars)
    (h : ∀ l ∈ splitNl c, pyStrip l ≠ "\x7d".data) :
    add_java_bean_getters c = (c, false) ∧
    ∀ pre post,
      (processFiles (pre ++ c :: post)).1 =
        (pre ++ c :: post).map (fun x => (add_java_bean_getters x).1) ∧
      (processFiles (pre ++ c :: post)).2.1 =
        (processFiles pre).2.1 + (processFiles post).2.1 ∧
      (processFiles (pre ++ c :: post)).2.2 = pre.length + 1 + post.length := by
  have hnone : lastIdxP braceLine (splitNl c) = none :=
    (lastIdxP_none_iff _ _).mpr fun l hl => by
      have hne := h l hl
      cases hb : braceLine l
      · rfl
      · exact absurd ((braceLine_iff l).mp hb) hne
  have hmain : add_java_bean_getters c = (c, false) := by
    unfold add_java_bean_getters
    by_cases h1 : hasInfix markerChars c
    · simp [h1]
    · by_cases h2 : (findAccessors c).isEmpty
      · simp [h1, h2]
      · simp [h1, h2, insertBeforeLastBrace, hnone]
  refine ⟨hmain, fun pre post => ⟨processFiles_fst _, ?_, ?_⟩⟩
  · rw [processFiles_upd_append, processFiles_upd_cons, hmain]
    simp
  · rw [processFiles_total]
    simp
    omega

/-- C7 witness: a brace-free document processed between two others. -/
theorem C7_witness :
    add_java_bean_getters "abc".data = ("abc".data, false) ∧
    (processFiles (["x".data] ++ "abc".data :: ["\x7d q".data])).1 =
      (["x".data] ++ "abc".data :: ["\x7d q".data]).map
        (fun x => (add_java_bean_getters x).1) ∧
    (processFiles (["x".data] ++ "abc".data :: ["\x7d q".data])).2.1 =
      (processFiles ["x".data]).2.1 + (processFiles ["\x7d q".data]).2.1 ∧
    (processFiles (["x".data] ++ "abc".data :: ["\x7d q".data])).2.2 =
      (["x".data] : List Chars).length + 1 +
        (["\x7d q".data] : List Chars).length :=
  ⟨(C7_missing_brace_safe "abc".data (by decide)).1,
   ((C7_missing_brace_safe "abc".data (by decide)).2 ["x".data] ["\x7d q".data]).1,
   ((C7_missing_brace_safe "abc".data (by decide)).2 ["x".data] ["\x7d q".data]).2.1,
   ((C7_missing_brace_safe "abc".data (by decide)).2 ["x".data] ["\x7d q".data]).2.2⟩

/-- C8: for a non-empty extraction, the synthesized block is exactly one
marker line followed by one declaration per extracted triple, in
extraction order, each of the exact shape
`public <returnType> <alternateName>() ... return <fieldName> ...`. -/
theorem C8_block_shape (accessors : List PyTriple) (_h : accessors ≠ []) :
    (mkGetters accessors).length = accessors.length + 1 ∧
    (mkGetters accessors).head? = some markerLine ∧
    ∀ i rt mn fn, accessors[i]? = some (rt, mn, fn) →
      (mkGetters accessors)[i + 1]? =
        some ("    public ".data ++ rt ++ " ".data ++ getterName rt mn ++
          "() \x7b return ".data ++ fn ++ "; \x7d".data) := by
  refine ⟨by simp [mkGetters], by simp [mkGetters], ?_⟩
  intro i rt mn fn hi
  have hstep : (mkGetters accessors)[i + 1]? = (accessors.map mkDecl)[i]? := by
    simp [mkGetters]
  rw [hstep, List.getElem?_map, hi]
  rfl

/-- C8 witness: the block built from one extracted triple. -/
theorem C8_witness :
    (mkGetters [("int".data, "x".data, "y".data)]).length =
      ([("int".data, "x".data, "y".data)] : List PyTriple).length + 1 ∧
    (mkGetters [("int".data, "x".data, "y".data)])[1]? =
      some ("    public ".data ++ "int".data ++ " ".data ++
        getterName "int".data "x".data ++ "() \x7b return ".data ++
        "y".data ++ "; \x7d".data) :=
  ⟨(C8_block_shape [("int".data, "x".data, "y".data)] (by decide)).1,
   (C8_block_shape [("int".data, "x".data, "y".data)] (by decide)).2.2
     0 "int".data "x".data "y".data (by decide)⟩

/-- C9: on every input text, every match of the accessor pattern has its
matched opening brace followed by nothing but whitespace, a mandatory
newline, more whitespace, and then `return` — the extractor matches only
declarations whose opening brace is followed by a newline before the
return statement.  Consequently a text without any newline — in
particular every declaration line the synthesizer emits — never yields a
triple, and running the extractor on the transformed concrete file finds
exactly the original accessors again: the synthesized `getName` and
`IsActive` getters are never re-extracted on a later pass, independently
of the marker guard. -/
theorem C9_newline_required :
    (∀ (s : Chars) (x : Chars × Caps), x ∈ mtch accessorRE s →
      ∃ A w1 w2 B,
        s = A ++ '\x7b' :: (w1 ++ '\n' :: (w2 ++ ("return".data ++ B))) ∧
        (∀ c ∈ w1, spaceCl c = true) ∧ (∀ c ∈ w2, spaceCl c = true)) ∧
    (∀ s : Chars, (∀ ch ∈ s, ch ≠ '\n') → findAccessors s = []) ∧
    (∀ rt mn fn : Chars,
      (∀ ch ∈ rt, ch ≠ '\n') → (∀ ch ∈ mn, ch ≠ '\n') →
      (∀ ch ∈ fn, ch ≠ '\n') →
      findAccessors (mkDecl (rt, mn, fn)) = []) ∧
    findAccessors outC1 = findAccessors inputC1m ∧
    ("String".data, "getName".data, "name".data) ∉ findAccessors outC1 ∧
    ("boolean".data, "IsActive".data, "active".data) ∉ findAccessors outC1 := by
  have main : ∀ s : Chars, (∀ ch ∈ s, ch ≠ '\n') → findAccessors s = [] :=
    fun s hs => scanAux_no_nl s.length s hs
  refine ⟨mtch_brace_newline, main, fun rt mn fn h1 h2 h3 => main _ ?_,
    by decide, by decide, by decide⟩
  intro ch hch
  unfold mkDecl at hch
  simp only [List.append_assoc, List.mem_append] at hch
  rcases hch with hA | hB | hC | hD | hE | hF | hG
  · exact (by decide : ∀ x ∈ "    public ".data, x ≠ '\n') ch hA
  · exact h1 ch hB
  · exact (by decide : ∀ x ∈ " ".data, x ≠ '\n') ch hC
  · exact getterName_no_nl rt mn h2 ch hD
  · exact (by decide : ∀ x ∈ "() \x7b return ".data, x ≠ '\n') ch hE
  · exact h3 ch hF
  · exact (by decide : ∀ x ∈ "; \x7d".data, x ≠ '\n') ch hG

/-- C9 witness: a single-line accessor declaration yields no triple. -/
theorem C9_witness :
    findAccessors "    public int x() \x7b return y; \x7d".data = [] :=
  C9_newline_required.2.1 _ (by decide)

/-- C10: every match of the accessor pattern starts with four spaces
followed by `public`, so the extractor matches a declaration only when
`public` is immediately preceded by four space characters; any input on
which extraction succeeds contains that ten-character run, and an
accessor declaration at column zero or indented with a tab is never
extracted. -/
theorem C10_four_space_indent_required :
    (∀ (s : Chars) (x : Chars × Caps), x ∈ mtch accessorRE s →
      ∃ t, s = "    public".data ++ t) ∧
    (∀ s : Chars, findAccessors s ≠ [] →
      ∃ a b, s = a ++ "    public".data ++ b) ∧
    findAccessors "public int x() \x7b\n    return y;\n\x7d".data = [] ∧
    findAccessors "\tpublic int x() \x7b\n    return y;\n\x7d".data = [] := by
  refine ⟨?_, ?_, by decide, by decide⟩
  · intro s x hx
    exact seqChars_start "    public".data _ s x hx
  · intro s hs
    exact scanAux_pub s.length s hs

/-- C10 witness: an input on which extraction succeeds contains the
four-space `public` run. -/
theorem C10_witness :
    ∃ a b, "    public int x() \x7b\n return y;\n\x7d".data =
      a ++ "    public".data ++ b :=
  C10_four_space_indent_required.2.1 _ (by decide)

end Haven
